import Mathlib

/-!
A shallow embedding of `src/main.py` of the data-pipeline dependency mapper.

Strings are Lean `String`s.  Python dictionaries mapping strings to lists of
strings are association lists (`RefMap`); the keys a scanner creates are
always distinct, so lookup by first match is exact.  The filesystem tree
walked by `os.walk` is abstracted as the list of files the walk yields, each
carrying its basename, its joined path and its text content.  Per-file read
errors, which the source merely logs before skipping the file, are outside
the model: a walked file is always readable.  Regular expressions of the
source are rendered as executable matchers over `List Char`, piece by piece,
with Python's backtracking made explicit where it can matter.
-/

/-- Character written `\` (kept out of character literals). -/
def backslashChar : Char := Char.ofNat 92

/-- Python `\s` whitespace, ASCII fragment: space, tab, newline, carriage
return, vertical tab, form feed. -/
def isPySpace (c : Char) : Bool :=
  c = ' ' || c = Char.ofNat 9 || c = Char.ofNat 10 || c = Char.ofNat 13 ||
    c = Char.ofNat 11 || c = Char.ofNat 12

/-- Python `str.strip()`: remove leading and trailing whitespace. -/
def pyStrip (s : String) : String :=
  String.mk (((s.data.dropWhile isPySpace).reverse.dropWhile isPySpace).reverse)

/-- `pat` occurs at the start of `s`. -/
def startsWithSeq (pat s : List Char) : Bool := s.take pat.length == pat

/-- `pat` occurs somewhere in `s` (Python `pat in s` on strings). -/
def containsSeq (pat : List Char) : List Char → Bool
  | [] => pat.isEmpty
  | c :: rest => startsWithSeq pat (c :: rest) || containsSeq pat rest

/-- Python substring test `needle in haystack`. -/
def pyIn (needle haystack : String) : Bool := containsSeq needle.data haystack.data

/-- `s` ends with `pat` (Python `str.endswith`). -/
def strEndsWith (s pat : String) : Bool := startsWithSeq pat.data.reverse s.data.reverse

/-- Association-list model of a Python dict from strings to lists of strings. -/
abbrev RefMap := List (String × List String)

/-- `source.get(k)`: the stored list, `none` when the key is absent. -/
def dictGet (d : RefMap) (k : String) : Option (List String) :=
  (d.find? (fun e => e.1 == k)).map (fun e => e.2)

/-- `d[k].append(v)`: append `v` to the value of the entry keyed `k`, leaving
every other entry unchanged. -/
def dictAppend (d : RefMap) (k v : String) : RefMap :=
  d.map (fun e => if e.1 = k then (e.1, e.2 ++ [v]) else e)

/-- `d[k] = v`: overwrite in place, or add the entry at the end. -/
def dictSet (d : RefMap) (k : String) (v : List String) : RefMap :=
  if d.any (fun e => e.1 == k) then d.map (fun e => if e.1 = k then (k, v) else e)
  else d ++ [(k, v)]

/-- Key list in first-occurrence order with duplicates removed: the keys a
Python dict comprehension over a list ends up with. -/
def dedupAcc (l : List String) : List String :=
  l.foldl (fun acc s => if acc.contains s then acc else acc ++ [s]) []

/-- The dict comprehension seeding each scanner: one empty-valued entry per
distinct search string, in first-occurrence order. -/
def initMap (search_data : List String) : RefMap :=
  (dedupAcc search_data).map (fun s => (s, []))

/-- One file yielded by `os.walk` over the scanned tree: its basename
(`file`), the joined path `os.path.join(subdir, file)`, and its text. -/
structure WalkedFile where
  name : String
  path : String
  content : String
deriving DecidableEq

/-- Inner loop shared verbatim by `find_strings_in_sql_files`
(src/main.py:48-50) and `find_list_strings_in_py_files` (src/main.py:181-183):
for every search string found in the file's content, append the file's path
under that string's key. -/
def scanFileStrings (search_data : List String) (f : WalkedFile) (results : RefMap) : RefMap :=
  search_data.foldl (fun res s => if pyIn s f.content then dictAppend res s f.path else res)
    results

/-- A file scanned by `find_strings_in_sql_files`: ends in `.sql` and is not
named exactly `table_list.sql` (src/main.py:43). -/
def sqlFileEligible (f : WalkedFile) : Bool :=
  strEndsWith f.name ".sql" && f.name != "table_list.sql"

/-- A file scanned by the `.py` scanners (src/main.py:148,176). -/
def pyFileEligible (f : WalkedFile) : Bool := strEndsWith f.name ".py"

/-- `find_strings_in_sql_files` (src/main.py:34-58). -/
def find_strings_in_sql_files (search_data : List String) (walk : List WalkedFile) : RefMap :=
  walk.foldl
    (fun results f => if sqlFileEligible f then scanFileStrings search_data f results else results)
    (initMap search_data)

/-- `find_list_strings_in_py_files` (src/main.py:168-187). -/
def find_list_strings_in_py_files (search_data : List String) (walk : List WalkedFile) : RefMap :=
  walk.foldl
    (fun results f => if pyFileEligible f then scanFileStrings search_data f results else results)
    (initMap search_data)

/-- Split a character list at separators; separators are dropped and empty
components kept (they are filtered away by `pathParts`). -/
def splitParts (sep : Char → Bool) : List Char → List (List Char)
  | [] => [[]]
  | c :: rest =>
    if sep c then [] :: splitParts sep rest
    else
      match splitParts sep rest with
      | h :: t => (c :: h) :: t
      | [] => [[c]]

/-- A path separator: forward slash or backslash. -/
def pathSepChar (c : Char) : Bool := c = '/' || c = backslashChar

/-- The components of `pathlib.Path(p).parts` for ordinary file paths: split
on either separator, empty components dropped.  (A Windows drive is rendered
without its trailing separator; no claim depends on the drive component.) -/
def pathParts (p : String) : List String :=
  ((splitParts pathSepChar p.data).map (fun cs => String.mk cs)).filter (fun s => s != "")

/-- Index of the last dot in `cs`, if any. -/
def lastDotIdx (cs : List Char) : Option Nat :=
  (cs.reverse.findIdx? (fun c => c = '.')).map (fun j => cs.length - 1 - j)

/-- `pathlib`'s stem rule on a basename: cut at the last dot when that dot is
neither the first nor the last character; otherwise the name is its own stem. -/
def stemOf (name : String) : String :=
  match lastDotIdx name.data with
  | some i =>
    if 0 < i && i + 1 < name.data.length then String.mk (name.data.take i) else name
  | none => name

/-- `get_filename_from_path` (src/main.py:128-138): `Path(filepath).stem`. -/
def get_filename_from_path (filepath : String) : String :=
  stemOf ((pathParts filepath).getLastD "")

/-- Per-file update of `find_dict_strings_in_py_files` (src/main.py:146-160):
for each key whose sql-file stem occurs in the file's text, append the file's
path unless it is already recorded under that key. -/
def scanFileStems (f : WalkedFile) (results : RefMap) : RefMap :=
  results.map (fun e =>
    if pyIn (get_filename_from_path e.1) f.content && !(e.2.contains f.path)
    then (e.1, e.2 ++ [f.path]) else e)

/-- `find_dict_strings_in_py_files` (src/main.py:139-167): keys are the
flattened values of the input map; after the walk, entries whose value list
stayed empty are dropped (src/main.py:165). -/
def find_dict_strings_in_py_files (search_data : RefMap) (walk : List WalkedFile) : RefMap :=
  let all_search_strings := search_data.flatMap (fun e => e.2)
  let results := walk.foldl
    (fun results f => if pyFileEligible f then scanFileStems f results else results)
    (initMap all_search_strings)
  results.filter (fun e => !e.2.isEmpty)

/-- Python truthiness of the values `write_to_csv` tests with `any`: `None`
and the empty string are falsy, any other string is truthy. -/
def pyTruthy : Option String → Bool
  | none => false
  | some s => !s.isEmpty

/-- `get_paths` (src/main.py:218-219): `source_dict.get(key, default_value)`.
Stored lists hold real strings while the `[None]` default forces `Option`
values, so stored entries are wrapped in `some`. -/
def get_paths (source_dict : RefMap) (key : String)
    (default_value : List (Option String) := [none]) : List (Option String) :=
  match dictGet source_dict key with
  | some v => v.map some
  | none => default_value

/-- One row of the first-pass report written by `write_to_csv`. -/
structure ReportRow where
  external_table_name : String
  sql_path : String
  py_path : String
  yaml_path : String
deriving DecidableEq

/-- Rows `write_to_csv` emits for one script path (src/main.py:248-259). -/
def rowsForPy (yaml_paths : RefMap) (t sql_path py_path : String) : List ReportRow :=
  let associated_yaml_paths := get_paths yaml_paths py_path
  if !(associated_yaml_paths.any pyTruthy) then [⟨t, sql_path, py_path, ""⟩]
  else
    associated_yaml_paths.map (fun y =>
      match y with
      | some yaml_path => ⟨t, sql_path, py_path, yaml_path⟩
      | none => ⟨t, sql_path, py_path, ""⟩)

/-- Rows `write_to_csv` emits for one entry of the table's sql-path list;
`none` is the `[None]` placeholder of an absent key (src/main.py:234-259).
The Python `set(...)` union has unspecified iteration order; the model fixes
first-occurrence order, and no proved statement depends on that choice. -/
def rowsForSql (py_paths py_table_paths yaml_paths : RefMap) (t : String) :
    Option String → List ReportRow
  | none => [⟨t, "", "", ""⟩]
  | some sql_path =>
    let py_paths_from_sql := get_paths py_paths sql_path []
    let py_paths_from_table := get_paths py_table_paths t []
    let all_py_paths :=
      dedupAcc ((py_paths_from_sql ++ py_paths_from_table).filterMap (fun x => x))
    if all_py_paths.isEmpty then [⟨t, sql_path, "", ""⟩]
    else all_py_paths.flatMap (rowsForPy yaml_paths t sql_path)

/-- Rows `write_to_csv` emits for one catalog table (src/main.py:227-259). -/
def rowsForTable (sql_paths py_paths py_table_paths yaml_paths : RefMap) (t : String) :
    List ReportRow :=
  let associated_sql_paths := get_paths sql_paths t
  if !(associated_sql_paths.any pyTruthy) then [⟨t, "", "", ""⟩]
  else associated_sql_paths.flatMap (rowsForSql py_paths py_table_paths yaml_paths t)

/-- The full `rows_to_write` list built by `write_to_csv`
(src/main.py:220-259); the CSV serialization itself is I/O outside the model. -/
def write_to_csv_rows (external_table_names : List String)
    (sql_paths py_paths py_table_paths yaml_paths : RefMap) : List ReportRow :=
  external_table_names.flatMap (rowsForTable sql_paths py_paths py_table_paths yaml_paths)

/-- Python `\w` word character, ASCII fragment: letter, digit or underscore. -/
def isWordChar (c : Char) : Bool := c.isAlpha || c.isDigit || c = '_'

/-- The email regex's character class `[\w\.-]`. -/
def isEmailChar (c : Char) : Bool := isWordChar c || c = '.' || c = '-'

/-- `re.findall` of `[\w\.-]+@[\w\.-]+` (src/main.py:284), by fuel-indexed
scan.  At each position the engine matches the greedy class run, requires an
`@`, then a nonempty second run; on failure it advances one character, after a
match it resumes past the match.  The fuel is the text length, which bounds
the number of scan steps. -/
def emailScanAux : Nat → List Char → List String
  | 0, _ => []
  | _ + 1, [] => []
  | fuel + 1, c :: rest =>
    if isEmailChar c then
      let r1 := (c :: rest).takeWhile isEmailChar
      match (c :: rest).dropWhile isEmailChar with
      | '@' :: t =>
        let r2 := t.takeWhile isEmailChar
        if r2.isEmpty then emailScanAux fuel rest
        else String.mk (r1 ++ '@' :: r2) :: emailScanAux fuel (t.dropWhile isEmailChar)
      | _ => emailScanAux fuel rest
    else emailScanAux fuel rest

/-- All emails on a line. -/
def emailFindAll (line : String) : List String := emailScanAux line.data.length line.data

/-- Remainders the regex piece `\s*` can leave: drop any number of leading
whitespace characters. -/
def wsRem : List Char → List (List Char)
  | [] => [[]]
  | c :: rest => (c :: rest) :: (if isPySpace c then wsRem rest else [])

/-- Remainders of the optional marker `(\*\*|#)?`: consume `**`, or `#`, or
nothing (the two marker shapes cannot both apply). -/
def markerOpts (s : List Char) : List (List Char) :=
  if startsWithSeq ['*', '*'] s then [s.drop 2, s]
  else if startsWithSeq ['#'] s then [s.drop 1, s]
  else [s]

/-- The section-header key class `[a-zA-Z_]` — note: no digits. -/
def isSectionKeyChar (c : Char) : Bool := c.isAlpha || c = '_'

/-- Remainders of a plus-quantified class: drop one or more leading
characters satisfying `p`. -/
def seqRem (p : Char → Bool) : List Char → List (List Char)
  | [] => []
  | c :: rest => if p c then rest :: seqRem p rest else []

/-- Consume the literal `:` of the pattern and hand the rest to `q`. -/
def colonThen (q : List Char → Bool) : List Char → Bool
  | [] => false
  | c :: s5 => if c = ':' then q s5 else false

/-- The source's `new_section_pattern`
`^\s*(\*\*|#)?\s*[a-zA-Z_]+:\s*(\*\*|#)?\s*$` (src/main.py:291) as a
nondeterministic anchored matcher: the match succeeds when some way of
consuming each regex piece in order reaches the end of the line. -/
def newSectionMatch (s : List Char) : Bool :=
  (wsRem s).any (fun s1 =>
    (markerOpts s1).any (fun s2 =>
      (wsRem s2).any (fun s3 =>
        (seqRem isSectionKeyChar s3).any (colonThen (fun s5 =>
          (wsRem s5).any (fun s6 =>
            (markerOpts s6).any (fun s7 =>
              (wsRem s7).any (fun s8 => s8.isEmpty))))))))

/-- A line terminates an owner block when, stripped, it matches
`new_section_pattern` (src/main.py:314-316). -/
def isTerminator (line : String) : Bool := newSectionMatch (pyStrip line).data

/-- `owner_tag_pattern.search(line)` (src/main.py:287,308): the line contains
`owner:` case-insensitively. -/
def containsOwnerTag (line : String) : Bool :=
  containsSeq "owner:".data (line.data.map Char.toLower)

/-- Emails collected for one owner tag: scan the lines after it, stop at the
first terminator, gather every email on the scanned lines
(src/main.py:310-321). -/
def blockEmails (rest : List String) : List String :=
  (rest.takeWhile (fun l => !isTerminator l)).flatMap emailFindAll

/-- The enumerate loop of `extract_owners_from_file` (src/main.py:306-321):
every line containing the owner tag opens a block over the lines after it. -/
def collectOwnerEmails : List String → List String
  | [] => []
  | line :: rest =>
    (if containsOwnerTag line then blockEmails rest else []) ++ collectOwnerEmails rest

/-- Python string comparison: lexicographic on code points. -/
def pyStrLt : List Char → List Char → Bool
  | [], [] => false
  | [], _ :: _ => true
  | _ :: _, [] => false
  | a :: xs, b :: ys => if a < b then true else if b < a then false else pyStrLt xs ys

/-- Insert into an ascending list (auxiliary of `pySortedUnique`). -/
def insertAsc (x : String) : List String → List String
  | [] => [x]
  | y :: ys => if pyStrLt y.data x.data then y :: insertAsc x ys else x :: y :: ys

/-- `sorted(list(set(l)))` for strings: duplicates removed, ascending
code-point order. -/
def pySortedUnique (l : List String) : List String :=
  (dedupAcc l).foldr insertAsc []

/-- `extract_owners_from_file` (src/main.py:275-329): the pure core, taking
the file's lines as `readlines` yields them (the unreadable-file early
returns are I/O outside the model). -/
def extract_owners_from_lines (lines : List String) : List String :=
  let owner_emails := collectOwnerEmails lines
  if owner_emails.isEmpty then [] else pySortedUnique owner_emails

/-- `get_external_table_names_from_csv` (src/main.py:6-33).  The input CSV is
its list of rows; `none` models a missing or unreadable file.  On error the
function logs and returns the empty dict; on success a dict with the single
key `external_table_names` holding `row[1].strip() + "." + row[2].strip()`
for every post-header row with at least three columns. -/
def get_external_table_names_from_csv (file : Option (List (List String))) : RefMap :=
  match file with
  | none => []
  | some rows =>
    [("external_table_names",
      (rows.drop 1).filterMap (fun row =>
        if row.length ≥ 3 then
          some (pyStrip (row.getD 1 "") ++ "." ++ pyStrip (row.getD 2 ""))
        else none))]

/-- A quote character of the yaml-call pattern (either kind, on both sides). -/
def isYamlQuote (c : Char) : Bool := c = Char.ofNat 39 || c = Char.ofNat 34

/-- Try `yaml\.(?:safe_)?load\(open\(` followed by a quote and a lazy capture
up to the next quote (src/main.py:193) at the head of `s`; on success return
the capture and the remainder after the closing quote.  The lazy `(.*?)`
cannot cross a newline, so the capture runs to the first quote character and
fails if a newline or the end of text comes first. -/
def matchYamlAt (s : List Char) : Option (String × List Char) :=
  if startsWithSeq "yaml.".data s then
    let s1 := s.drop 5
    let s2 := if startsWithSeq "safe_".data s1 then s1.drop 5 else s1
    if startsWithSeq "load(open(".data s2 then
      match s2.drop 10 with
      | q :: s4 =>
        if isYamlQuote q then
          let cap := s4.takeWhile (fun c => !isYamlQuote c && c != Char.ofNat 10)
          match s4.drop cap.length with
          | q2 :: s5 => if isYamlQuote q2 then some (String.mk cap, s5) else none
          | [] => none
        else none
      | [] => none
    else none
  else none

/-- `re.findall` of the yaml-call pattern: scan left to right, advancing one
character on failure and past the match on success (fuel = text length). -/
def yamlScanAux : Nat → List Char → List String
  | 0, _ => []
  | _ + 1, [] => []
  | fuel + 1, c :: rest =>
    match matchYamlAt (c :: rest) with
    | some (cap, remainder) => cap :: yamlScanAux fuel remainder
    | none => yamlScanAux fuel rest

/-- All yaml-call captures in a file's text. -/
def yamlFindAll (content : String) : List String := yamlScanAux content.data.length content.data

/-- Look a walked file up by its joined path: the `open(py_file)` of
`find_yaml_paths_in_files`. -/
def readWalkFile (walk : List WalkedFile) (p : String) : Option String :=
  (walk.find? (fun f => f.path == p)).map (fun f => f.content)

/-- `find_yaml_paths_in_files` (src/main.py:188-217): every input script gets
an entry; a readable script contributes its captures, an unreadable one (a
path not in the walk) keeps the empty list after a logged warning. -/
def find_yaml_paths_in_files (py_files : List String) (walk : List WalkedFile) : RefMap :=
  py_files.foldl (fun d py_file =>
    match readWalkFile walk py_file with
    | none => dictSet d py_file []
    | some content => dictSet d py_file (yamlFindAll content)) []

/-- Index of the first occurrence, Python's `list.index`. -/
def listIdxOf (a : String) : List String → Nat
  | [] => 0
  | x :: xs => if x = a then 0 else listIdxOf a xs + 1

/-- `get_first_subfolder_from_anchor` (src/main.py:373-409): locate the first
`pipeline` component of the path and return the component after it; `none`
when the anchor is absent or last. -/
def get_first_subfolder_from_anchor (file_path : String)
    (anchor_folder : String := "pipeline") : Option String :=
  let parts := pathParts file_path
  if anchor_folder ∈ parts then
    let anchor_index := listIdxOf anchor_folder parts
    if anchor_index + 1 < parts.length then (parts.drop (anchor_index + 1)).head? else none
  else none

/-- The driver (`__main__`, src/main.py:419-460) through the first report
pass.  The catalog CSV is `none` when missing or unreadable; all three tree
scans walk the same root, so they share one walk list.  When the loader
returns the empty dict, `.get('external_table_names')` yields `None`, and
`find_strings_in_sql_files` then iterates `None` in its dict comprehension
(src/main.py:39): Python raises `TypeError`, modelled as `Except.error`. -/
def mainPipeline (catalog_csv : Option (List (List String))) (walk : List WalkedFile) :
    Except String (List ReportRow) :=
  let external_table_names := get_external_table_names_from_csv catalog_csv
  match dictGet external_table_names "external_table_names" with
  | none => Except.error "TypeError: argument of type NoneType is not iterable"
  | some names =>
    let sql_file_paths := find_strings_in_sql_files names walk
    let py_file_paths := find_dict_strings_in_py_files sql_file_paths walk
    let py_file_paths_by_table_name := find_list_strings_in_py_files names walk
    let yaml_files := find_list_strings_in_py_files [".yaml"] walk
    let yaml_airflow_file_paths :=
      find_yaml_paths_in_files ((dictGet yaml_files ".yaml").getD []) walk
    Except.ok (write_to_csv_rows names sql_file_paths py_file_paths
      py_file_paths_by_table_name yaml_airflow_file_paths)

/-- The four-line file of the spec's owner-extraction example. -/
def specOwnerFileLines : List String :=
  ["owner: a@x.com\n", "next: b@x.com\n", "State: foo\n", "owner: c@x.com"]

/-- The three alternatives of the optional marker group `(\*\*|#)?`. -/
def MarkerOpt (m : List Char) : Prop := m = [] ∨ m = ['*', '*'] ∨ m = ['#']

/-- Every character is whitespace. -/
def PySpaces (w : List Char) : Prop := ∀ c ∈ w, isPySpace c = true

/-- The terminator shape exactly as claim C4 words it: an optional marker,
one or more word characters (which include digits), a colon, an optional
trailing marker, and nothing else — in particular no interior whitespace. -/
def claimedTerminator (s : List Char) : Bool :=
  (markerOpts s).any (fun s1 =>
    (seqRem isWordChar s1).any (colonThen (fun s3 =>
      (markerOpts s3).any (fun s4 => s4.isEmpty))))

/-- The shape the stripped line must have for `new_section_pattern` to match:
whitespace, optional marker, whitespace, a nonempty run of letters or
underscores, a colon, whitespace, optional marker, trailing whitespace. -/
def TerminatorShape (s : List Char) : Prop :=
  ∃ w1 m1 w2 k w3 m2 w4,
    s = w1 ++ (m1 ++ (w2 ++ (k ++ ':' :: (w3 ++ (m2 ++ w4))))) ∧
    PySpaces w1 ∧ MarkerOpt m1 ∧ PySpaces w2 ∧
    k ≠ [] ∧ (∀ c ∈ k, isSectionKeyChar c = true) ∧
    PySpaces w3 ∧ MarkerOpt m2 ∧ PySpaces w4

/-! ### Dictionary lemmas -/

theorem dictGet_nil (k : String) : dictGet [] k = none := rfl

theorem dictGet_cons (e : String × List String) (d : RefMap) (k : String) :
    dictGet (e :: d) k = if e.1 = k then some e.2 else dictGet d k := by
  by_cases h : e.1 = k
  · simp [dictGet, List.find?_cons_of_pos, h]
  · simp [dictGet, List.find?_cons_of_neg, h]

theorem dictGet_dictAppend (d : RefMap) (s v k : String) :
    dictGet (dictAppend d s v) k =
      (dictGet d k).map (fun l => if s = k then l ++ [v] else l) := by
  induction d with
  | nil => simp [dictAppend, dictGet_nil]
  | cons e d ih =>
    have hstep : dictAppend (e :: d) s v =
        (if e.1 = s then (e.1, e.2 ++ [v]) else e) :: dictAppend d s v := by
      simp [dictAppend]
    rw [hstep]
    by_cases hes : e.1 = s
    · by_cases hek : e.1 = k
      · have hsk : s = k := by rw [← hes, hek]
        simp [dictGet_cons, hes, hek, hsk]
      · have hsk : ¬s = k := fun h => hek (by rw [hes, h])
        simp [dictGet_cons, hes, hek, hsk, ih]
    · by_cases hek : e.1 = k
      · have hsk : ¬s = k := fun h => hes (by rw [hek, ← h])
        have hks : ¬k = s := fun h => hsk h.symm
        simp [dictGet_cons, hes, hek, hsk, hks]
      · simp [dictGet_cons, hes, hek, ih]

theorem contains_iff_mem {l : List String} {x : String} : l.contains x = true ↔ x ∈ l := by
  show l.elem x = true ↔ x ∈ l
  exact List.elem_iff

theorem scanFileStrings_nil (f : WalkedFile) (d : RefMap) : scanFileStrings [] f d = d := rfl

theorem scanFileStrings_cons (s : String) (sd : List String) (f : WalkedFile) (d : RefMap) :
    scanFileStrings (s :: sd) f d =
      scanFileStrings sd f (if pyIn s f.content then dictAppend d s f.path else d) := rfl

/-- What one file contributes under key `k`: one copy of its path per
occurrence of `k` in the search list, provided `k` occurs in the content. -/
theorem dictGet_scanFileStrings (sd : List String) (f : WalkedFile) (d : RefMap) (k : String) :
    dictGet (scanFileStrings sd f d) k =
      (dictGet d k).map (fun l =>
        l ++ if pyIn k f.content = true then List.replicate (sd.count k) f.path else []) := by
  induction sd generalizing d with
  | nil =>
    rw [scanFileStrings_nil]
    cases dictGet d k <;> simp
  | cons s sd ih =>
    rw [scanFileStrings_cons]
    by_cases hin : pyIn s f.content = true
    · rw [if_pos hin, ih, dictGet_dictAppend]
      by_cases hs : s = k
      · subst hs
        cases dictGet d s <;>
          simp [hin, List.count_cons, List.replicate_succ, List.append_assoc]
      · have hbe : (s == k) = false := by simp [hs]
        cases dictGet d k <;> simp [hs, List.count_cons, hbe]
    · rw [if_neg hin, ih]
      by_cases hs : s = k
      · subst hs
        cases dictGet d s <;> simp [hin, List.count_cons]
      · have hbe : (s == k) = false := by simp [hs]
        cases dictGet d k <;> simp [List.count_cons, hbe]

/-- Closed form for the walks of `find_strings_in_sql_files` and
`find_list_strings_in_py_files`: under key `k`, the seed value followed by
the paths of the eligible files whose content contains `k`, repeated once per
occurrence of `k` in the search list. -/
theorem dictGet_walkFold (elig : WalkedFile → Bool) (sd : List String)
    (walk : List WalkedFile) (d : RefMap) (k : String) :
    dictGet (walk.foldl
        (fun results f => if elig f then scanFileStrings sd f results else results) d) k =
      (dictGet d k).map (fun l =>
        l ++ (walk.filter (fun f => elig f && pyIn k f.content)).flatMap
          (fun f => List.replicate (sd.count k) f.path)) := by
  induction walk generalizing d with
  | nil =>
    rw [List.foldl_nil]
    cases dictGet d k <;> simp
  | cons f walk ih =>
    rw [List.foldl_cons]
    by_cases he : elig f = true
    · rw [if_pos he, ih, dictGet_scanFileStrings]
      by_cases hin : pyIn k f.content = true
      · cases dictGet d k <;>
          simp [he, hin, List.filter_cons, List.flatMap_cons, List.append_assoc]
      · cases dictGet d k <;> simp [he, hin, List.filter_cons]
    · rw [if_neg he, ih]
      cases dictGet d k <;> simp [he, List.filter_cons]

theorem mem_foldl_dedup (l : List String) : ∀ (acc : List String) (x : String),
    (x ∈ l.foldl (fun acc s => if acc.contains s then acc else acc ++ [s]) acc) ↔
      x ∈ acc ∨ x ∈ l := by
  induction l with
  | nil => intro acc x; simp
  | cons s l ih =>
    intro acc x
    rw [List.foldl_cons]
    by_cases hc : acc.contains s
    · rw [if_pos hc, ih]
      constructor
      · rintro (h | h)
        · exact Or.inl h
        · exact Or.inr (List.mem_cons_of_mem _ h)
      · rintro (h | h)
        · exact Or.inl h
        · rcases List.mem_cons.mp h with rfl | h
          · exact Or.inl (contains_iff_mem.mp hc)
          · exact Or.inr h
    · rw [if_neg hc, ih]
      simp only [List.mem_append, List.mem_singleton, List.mem_cons]
      tauto

theorem mem_dedupAcc {l : List String} {x : String} : x ∈ dedupAcc l ↔ x ∈ l := by
  rw [dedupAcc, mem_foldl_dedup]
  simp

theorem dictGet_keysMap (keys : List String) (k : String) :
    dictGet (keys.map (fun s => (s, ([] : List String)))) k =
      if k ∈ keys then some [] else none := by
  induction keys with
  | nil => simp [dictGet_nil]
  | cons s keys ih =>
    rw [List.map_cons, dictGet_cons]
    by_cases h : s = k
    · simp [h]
    · have hks : ¬k = s := fun hh => h hh.symm
      simp [h, hks, ih]

theorem dictGet_initMap (sd : List String) (k : String) :
    dictGet (initMap sd) k = if k ∈ sd then some [] else none := by
  rw [initMap, dictGet_keysMap]
  by_cases h : k ∈ sd <;> simp [mem_dedupAcc, h]

theorem dictGet_find_strings (sd : List String) (walk : List WalkedFile) (k : String) :
    dictGet (find_strings_in_sql_files sd walk) k =
      (dictGet (initMap sd) k).map (fun l =>
        l ++ (walk.filter (fun f => sqlFileEligible f && pyIn k f.content)).flatMap
          (fun f => List.replicate (sd.count k) f.path)) :=
  dictGet_walkFold sqlFileEligible sd walk (initMap sd) k

theorem dictGet_find_list (sd : List String) (walk : List WalkedFile) (k : String) :
    dictGet (find_list_strings_in_py_files sd walk) k =
      (dictGet (initMap sd) k).map (fun l =>
        l ++ (walk.filter (fun f => pyFileEligible f && pyIn k f.content)).flatMap
          (fun f => List.replicate (sd.count k) f.path)) :=
  dictGet_walkFold pyFileEligible sd walk (initMap sd) k

/-- C6: for every input list of search strings and every walk, the SQL
scanner and the by-table correlator keep every search string as a key of the
returned map, and a string matched by no eligible file keeps the empty list
as its value rather than losing its key. -/
theorem claim_C6_scanner_keys_total (search_data : List String) (walk : List WalkedFile)
    (s : String) (hs : s ∈ search_data) :
    (∃ l, dictGet (find_strings_in_sql_files search_data walk) s = some l) ∧
    ((∀ f ∈ walk, sqlFileEligible f = true → pyIn s f.content = false) →
      dictGet (find_strings_in_sql_files search_data walk) s = some []) ∧
    (∃ l, dictGet (find_list_strings_in_py_files search_data walk) s = some l) ∧
    ((∀ f ∈ walk, pyFileEligible f = true → pyIn s f.content = false) →
      dictGet (find_list_strings_in_py_files search_data walk) s = some []) := by
  refine ⟨?_, ?_, ?_, ?_⟩
  · simp only [dictGet_find_strings, dictGet_initMap, hs, if_true]
    exact ⟨_, rfl⟩
  · intro h
    rw [dictGet_find_strings, dictGet_initMap, if_pos hs]
    have hfil : walk.filter (fun f => sqlFileEligible f && pyIn s f.content) = [] := by
      refine List.filter_eq_nil_iff.mpr (fun f hf => ?_)
      by_cases he : sqlFileEligible f = true
      · simp [he, h f hf he]
      · simp [he]
    rw [hfil]
    simp
  · simp only [dictGet_find_list, dictGet_initMap, hs, if_true]
    exact ⟨_, rfl⟩
  · intro h
    rw [dictGet_find_list, dictGet_initMap, if_pos hs]
    have hfil : walk.filter (fun f => pyFileEligible f && pyIn s f.content) = [] := by
      refine List.filter_eq_nil_iff.mpr (fun f hf => ?_)
      by_cases he : pyFileEligible f = true
      · simp [he, h f hf he]
      · simp [he]
    rw [hfil]
    simp

theorem claim_C6_witness :
    ("T" ∈ (["T"] : List String)) ∧
    dictGet (find_strings_in_sql_files ["T"] [⟨"a.sql", "p/a.sql", "zzz"⟩]) "T" = some [] ∧
    dictGet (find_list_strings_in_py_files ["T"] [⟨"a.sql", "p/a.sql", "zzz"⟩]) "T" = some [] := by
  refine ⟨by decide, ?_, ?_⟩
  · exact (claim_C6_scanner_keys_total ["T"] [⟨"a.sql", "p/a.sql", "zzz"⟩] "T"
      (by decide)).2.1 (by decide)
  · exact (claim_C6_scanner_keys_total ["T"] [⟨"a.sql", "p/a.sql", "zzz"⟩] "T"
      (by decide)).2.2.2 (by decide)

theorem count_le_one_of_nodup {l : List String} (h : l.Nodup) (p : String) : l.count p ≤ 1 := by
  induction l with
  | nil => simp
  | cons a l ih =>
    rw [List.count_cons]
    rcases List.nodup_cons.mp h with ⟨hnotin, hnd⟩
    by_cases hap : a = p
    · subst hap
      have hz : l.count a = 0 := List.count_eq_zero.mpr hnotin
      simp [hz]
    · have : (a == p) = false := by simp [hap]
      simp [this, ih hnd]

theorem flatMap_replicate_zero (ws : List WalkedFile) :
    (ws.flatMap fun f => List.replicate 0 f.path) = [] := by
  induction ws with
  | nil => simp
  | cons f ws ih => simp [List.flatMap_cons, ih]

theorem flatMap_replicate_one (ws : List WalkedFile) :
    (ws.flatMap fun f => List.replicate 1 f.path) = ws.map (fun f => f.path) := by
  induction ws with
  | nil => simp
  | cons f ws ih =>
    rw [List.flatMap_cons, ih]
    simp

theorem flatMap_replicate_count_le_one (ws : List WalkedFile)
    (hnd : (ws.map (fun f => f.path)).Nodup) (n : Nat) (hn : n ≤ 1) (p : String) :
    (ws.flatMap fun f => List.replicate n f.path).count p ≤ 1 := by
  match n, hn with
  | 0, _ =>
    rw [flatMap_replicate_zero]
    simp
  | 1, _ =>
    rw [flatMap_replicate_one]
    exact count_le_one_of_nodup hnd p

/-- C10 counterexample: with a duplicated search string the by-table
correlator appends the same file path twice under one key, even though the
walk yields each file exactly once. -/
theorem claim_C10_counterexample :
    (([⟨"s.py", "p/s.py", "T"⟩] : List WalkedFile).map (fun f => f.path)).Nodup ∧
    dictGet (find_list_strings_in_py_files ["T", "T"] [⟨"s.py", "p/s.py", "T"⟩]) "T" =
      some ["p/s.py", "p/s.py"] ∧
    ¬(["p/s.py", "p/s.py"] : List String).count "p/s.py" ≤ 1 := by
  refine ⟨?_, ?_, ?_⟩ <;> decide

/-- C10 (amended): when the search strings are pairwise distinct and the walk
yields each file path exactly once, every value list of the by-table
correlator contains any given file path at most once per key. -/
theorem claim_C10_bytable_amended (search_data : List String) (walk : List WalkedFile)
    (hsd : search_data.Nodup) (hw : (walk.map (fun f => f.path)).Nodup)
    (k : String) (l : List String)
    (hget : dictGet (find_list_strings_in_py_files search_data walk) k = some l)
    (p : String) : l.count p ≤ 1 := by
  rw [dictGet_find_list, dictGet_initMap] at hget
  by_cases hk : k ∈ search_data
  · rw [if_pos hk] at hget
    have hl : l = (walk.filter fun f => pyFileEligible f && pyIn k f.content).flatMap
        (fun f => List.replicate (search_data.count k) f.path) := by
      simpa using hget.symm
    have hfil : (((walk.filter fun f => pyFileEligible f && pyIn k f.content)).map
        (fun f => f.path)).Nodup :=
      List.Nodup.sublist (List.Sublist.map _ (List.filter_sublist _)) hw
    rw [hl]
    exact flatMap_replicate_count_le_one _ hfil _ (count_le_one_of_nodup hsd k) p
  · rw [if_neg hk] at hget
    simp at hget

theorem claim_C10_witness :
    (["T"] : List String).Nodup ∧
    (([⟨"s.py", "p/s.py", "T T"⟩] : List WalkedFile).map (fun f => f.path)).Nodup ∧
    dictGet (find_list_strings_in_py_files ["T"] [⟨"s.py", "p/s.py", "T T"⟩]) "T" =
      some ["p/s.py"] ∧
    (["p/s.py"] : List String).count "p/s.py" ≤ 1 :=
  ⟨by decide, by decide, by decide,
    claim_C10_bytable_amended ["T"] [⟨"s.py", "p/s.py", "T T"⟩] (by decide) (by decide)
      "T" ["p/s.py"] (by decide) "p/s.py"⟩

theorem find_dict_eq (search_data : RefMap) (walk : List WalkedFile) :
    find_dict_strings_in_py_files search_data walk =
      (walk.foldl
        (fun results f => if pyFileEligible f then scanFileStems f results else results)
        (initMap (search_data.flatMap (fun e => e.2)))).filter (fun e => !e.2.isEmpty) := rfl

theorem foldl_preserve_mem {σ β : Type} {P : σ → Prop} (step : σ → β → σ) :
    ∀ (l : List β) (d : σ), (∀ d b, b ∈ l → P d → P (step d b)) → P d → P (l.foldl step d) := by
  intro l
  induction l with
  | nil =>
    intro d _ hd
    simpa using hd
  | cons b l ih =>
    intro d hstep hd
    rw [List.foldl_cons]
    exact ih _ (fun d' b' hb' => hstep d' b' (List.mem_cons_of_mem _ hb'))
      (hstep d b (List.mem_cons_self _ _) hd)

theorem scanFileStems_nodup (f : WalkedFile) (d : RefMap)
    (h : ∀ e ∈ d, e.2.Nodup) : ∀ e ∈ scanFileStems f d, e.2.Nodup := by
  intro e he
  obtain ⟨e0, he0, rfl⟩ := List.mem_map.mp he
  by_cases hcond :
      (pyIn (get_filename_from_path e0.1) f.content && !(e0.2.contains f.path)) = true
  · rw [if_pos hcond]
    have hc : e0.2.contains f.path = false := by
      have h2 := ((Bool.and_eq_true _ _).mp hcond).2
      simpa using h2
    have hnotin : f.path ∉ e0.2 := fun hmem => by
      rw [contains_iff_mem.mpr hmem] at hc
      simp at hc
    exact (h e0 he0).append (List.nodup_singleton _)
      (fun x hx hx' => by
        rw [List.mem_singleton] at hx'
        exact hnotin (hx' ▸ hx))
  · rw [if_neg hcond]
    exact h e0 he0

theorem find_dict_values_nodup (search_data : RefMap) (walk : List WalkedFile) :
    ∀ e ∈ find_dict_strings_in_py_files search_data walk, e.2.Nodup := by
  intro e he
  rw [find_dict_eq] at he
  have he' := List.mem_of_mem_filter he
  have hinv : ∀ e ∈ (walk.foldl
      (fun results f => if pyFileEligible f then scanFileStems f results else results)
      (initMap (search_data.flatMap (fun e => e.2)))), e.2.Nodup := by
    refine @foldl_preserve_mem RefMap WalkedFile (fun d => ∀ e ∈ d, e.2.Nodup)
      (fun results f => if pyFileEligible f then scanFileStems f results else results)
      walk (initMap (search_data.flatMap (fun e => e.2))) ?_ ?_
    · intro d f _ hd
      show ∀ e ∈ (if pyFileEligible f = true then scanFileStems f d else d), e.2.Nodup
      by_cases hf : pyFileEligible f = true
      · rw [if_pos hf]
        exact scanFileStems_nodup f d hd
      · rw [if_neg hf]
        exact hd
    · intro e he
      obtain ⟨s, _, rfl⟩ := List.mem_map.mp he
      exact List.nodup_nil
  exact hinv e he'

/-- C7: every value list of the by-stem correlator records each script path
at most once per key — the membership guard before the append deduplicates,
whatever the file contents and however often a stem recurs in a script. -/
theorem claim_C7_bystem_dedup (search_data : RefMap) (walk : List WalkedFile)
    (k : String) (l : List String)
    (h : dictGet (find_dict_strings_in_py_files search_data walk) k = some l)
    (p : String) : l.count p ≤ 1 := by
  obtain ⟨e, hfind, hl⟩ : ∃ e,
      (find_dict_strings_in_py_files search_data walk).find? (fun e => e.1 == k) = some e ∧
        e.2 = l := by
    cases hf : (find_dict_strings_in_py_files search_data walk).find? (fun e => e.1 == k) with
    | none =>
      rw [dictGet, hf] at h
      simp at h
    | some e =>
      rw [dictGet, hf] at h
      simp at h
      exact ⟨e, rfl, h⟩
  have hmem := List.mem_of_find?_eq_some hfind
  have hnd := find_dict_values_nodup search_data walk e hmem
  rw [← hl]
  exact count_le_one_of_nodup hnd p

theorem claim_C7_witness :
    dictGet (find_dict_strings_in_py_files [("TBL", ["a/x.sql"])]
        [⟨"s.py", "p/s.py", "x and x again"⟩]) "a/x.sql" = some ["p/s.py"] ∧
    (["p/s.py"] : List String).count "p/s.py" ≤ 1 :=
  ⟨by decide,
    claim_C7_bystem_dedup [("TBL", ["a/x.sql"])] [⟨"s.py", "p/s.py", "x and x again"⟩]
      "a/x.sql" ["p/s.py"] (by decide) "p/s.py"⟩

/-- C9: every key the by-stem correlator returns maps to a nonempty list, and
a sql path whose stem occurs in no eligible script is dropped from the result
entirely (no key at all) rather than kept with an empty value list. -/
theorem claim_C9_bystem_nonempty (search_data : RefMap) (walk : List WalkedFile) :
    (∀ k l, dictGet (find_dict_strings_in_py_files search_data walk) k = some l → l ≠ []) ∧
    (∀ k, (∀ f ∈ walk, pyFileEligible f = true →
        pyIn (get_filename_from_path k) f.content = false) →
      dictGet (find_dict_strings_in_py_files search_data walk) k = none) := by
  constructor
  · intro k l h
    obtain ⟨e, hfind, hl⟩ : ∃ e,
        (find_dict_strings_in_py_files search_data walk).find? (fun e => e.1 == k) = some e ∧
          e.2 = l := by
      cases hf : (find_dict_strings_in_py_files search_data walk).find? (fun e => e.1 == k) with
      | none =>
        rw [dictGet, hf] at h
        simp at h
      | some e =>
        rw [dictGet, hf] at h
        simp at h
        exact ⟨e, rfl, h⟩
    have hmem := List.mem_of_find?_eq_some hfind
    rw [find_dict_eq] at hmem
    have hne := (List.mem_filter.mp hmem).2
    intro hnil
    rw [hl, hnil] at hne
    simp at hne
  · intro k hk
    have hinv : ∀ e ∈ (walk.foldl
        (fun results f => if pyFileEligible f then scanFileStems f results else results)
        (initMap (search_data.flatMap (fun e => e.2)))), e.1 = k → e.2 = [] := by
      refine @foldl_preserve_mem RefMap WalkedFile (fun d => ∀ e ∈ d, e.1 = k → e.2 = [])
        (fun results f => if pyFileEligible f then scanFileStems f results else results)
        walk (initMap (search_data.flatMap (fun e => e.2))) ?_ ?_
      · intro d f hfw hd
        show ∀ e ∈ (if pyFileEligible f = true then scanFileStems f d else d),
          e.1 = k → e.2 = []
        by_cases hf : pyFileEligible f = true
        · rw [if_pos hf]
          intro e he hek
          obtain ⟨e0, he0, rfl⟩ := List.mem_map.mp he
          by_cases hcond :
              (pyIn (get_filename_from_path e0.1) f.content && !(e0.2.contains f.path)) = true
          · rw [if_pos hcond] at hek ⊢
            have he0k : e0.1 = k := hek
            rw [he0k] at hcond
            have hpy := ((Bool.and_eq_true _ _).mp hcond).1
            rw [hk f hfw hf] at hpy
            simp at hpy
          · rw [if_neg hcond] at hek ⊢
            exact hd e0 he0 hek
        · rw [if_neg hf]
          exact hd
      · intro e he _
        obtain ⟨s, _, rfl⟩ := List.mem_map.mp he
        rfl
    rw [find_dict_eq, dictGet]
    have hnone : (List.filter (fun e => !e.2.isEmpty)
        (walk.foldl
          (fun results f => if pyFileEligible f then scanFileStems f results else results)
          (initMap (search_data.flatMap (fun e => e.2))))).find?
            (fun e => e.1 == k) = none := by
      rw [List.find?_eq_none]
      intro x hx hbeq
      have hx1 : x.1 = k := by simpa using hbeq
      have hxmem := List.mem_of_mem_filter hx
      have hxe := hinv x hxmem hx1
      have hxne := (List.mem_filter.mp hx).2
      rw [hxe] at hxne
      simp at hxne
    rw [hnone]
    rfl

theorem claim_C9_witness :
    dictGet (find_dict_strings_in_py_files [("TBL", ["a/x.sql"])] [⟨"s.py", "p/s.py", "zzz"⟩])
        "a/x.sql" = none ∧
    (["p/s.py"] : List String) ≠ [] :=
  ⟨(claim_C9_bystem_nonempty [("TBL", ["a/x.sql"])] [⟨"s.py", "p/s.py", "zzz"⟩]).2 "a/x.sql"
      (by decide),
   (claim_C9_bystem_nonempty [("TBL", ["a/x.sql"])] [⟨"s.py", "p/s.py", "x"⟩]).1 "a/x.sql"
      ["p/s.py"] (by decide)⟩

/-! ### Join (write_to_csv) lemmas -/

theorem any_true_ne_nil {α : Type} {l : List α} {p : α → Bool} (h : l.any p = true) :
    l ≠ [] := by
  intro hnil
  subst hnil
  simp at h

theorem rowsForPy_fst (yaml_paths : RefMap) (t sql_path py_path : String) :
    ∀ r ∈ rowsForPy yaml_paths t sql_path py_path, r.external_table_name = t := by
  intro r hr
  simp only [rowsForPy] at hr
  split at hr
  · rw [List.mem_singleton] at hr
    rw [hr]
  · obtain ⟨y, _, rfl⟩ := List.mem_map.mp hr
    cases y <;> rfl

theorem rowsForPy_ne_nil (yaml_paths : RefMap) (t sql_path py_path : String) :
    rowsForPy yaml_paths t sql_path py_path ≠ [] := by
  simp only [rowsForPy]
  split
  · simp
  · rename_i hcond
    have h2 : (get_paths yaml_paths py_path [none]).any pyTruthy = true := by
      simpa using hcond
    intro hmap
    rw [List.map_eq_nil_iff] at hmap
    rw [hmap] at h2
    simp at h2

theorem rowsForSql_fst (py_paths py_table_paths yaml_paths : RefMap) (t : String) :
    ∀ o, ∀ r ∈ rowsForSql py_paths py_table_paths yaml_paths t o,
      r.external_table_name = t := by
  intro o r hr
  cases o with
  | none =>
    simp only [rowsForSql] at hr
    rw [List.mem_singleton] at hr
    rw [hr]
  | some sql_path =>
    simp only [rowsForSql] at hr
    split at hr
    · rw [List.mem_singleton] at hr
      rw [hr]
    · obtain ⟨py, _, hpy⟩ := List.mem_flatMap.mp hr
      exact rowsForPy_fst yaml_paths t sql_path py r hpy

theorem rowsForSql_ne_nil (py_paths py_table_paths yaml_paths : RefMap) (t : String)
    (o : Option String) : rowsForSql py_paths py_table_paths yaml_paths t o ≠ [] := by
  cases o with
  | none => simp [rowsForSql]
  | some sql_path =>
    simp only [rowsForSql]
    split
    · simp
    · rename_i hcond
      cases hd : dedupAcc (((get_paths py_paths sql_path []) ++
          (get_paths py_table_paths t [])).filterMap (fun x => x)) with
      | nil =>
        rw [hd] at hcond
        simp at hcond
      | cons a rest =>
        rw [List.flatMap_cons]
        intro happ
        have := (List.append_eq_nil.mp happ).1
        exact rowsForPy_ne_nil yaml_paths t sql_path a this

theorem rowsForTable_fst (sql_paths py_paths py_table_paths yaml_paths : RefMap) (t : String) :
    ∀ r ∈ rowsForTable sql_paths py_paths py_table_paths yaml_paths t,
      r.external_table_name = t := by
  intro r hr
  simp only [rowsForTable] at hr
  split at hr
  · rw [List.mem_singleton] at hr
    rw [hr]
  · obtain ⟨o, _, ho⟩ := List.mem_flatMap.mp hr
    exact rowsForSql_fst py_paths py_table_paths yaml_paths t o r ho

theorem rowsForTable_ne_nil (sql_paths py_paths py_table_paths yaml_paths : RefMap)
    (t : String) : rowsForTable sql_paths py_paths py_table_paths yaml_paths t ≠ [] := by
  simp only [rowsForTable]
  split
  · simp
  · rename_i hcond
    have h2 : (get_paths sql_paths t [none]).any pyTruthy = true := by simpa using hcond
    cases hp : get_paths sql_paths t [none] with
    | nil =>
      rw [hp] at h2
      simp at h2
    | cons o rest =>
      rw [List.flatMap_cons]
      intro happ
      have := (List.append_eq_nil.mp happ).1
      exact rowsForSql_ne_nil py_paths py_table_paths yaml_paths t o this

/-- The table whose sql-path lookup is absent or empty contributes exactly
the single all-placeholder row (src/main.py:230-232). -/
theorem rowsForTable_placeholder (sql_paths py_paths py_table_paths yaml_paths : RefMap)
    (t : String) (h : dictGet sql_paths t = none ∨ dictGet sql_paths t = some []) :
    rowsForTable sql_paths py_paths py_table_paths yaml_paths t = [⟨t, "", "", ""⟩] := by
  simp only [rowsForTable]
  have hassoc : (get_paths sql_paths t [none]).any pyTruthy = false := by
    rcases h with h | h <;> simp [get_paths, h, pyTruthy]
  rw [if_pos (by simp [hassoc])]

/-- C1: every catalog table appears as the first field of at least one row of
the join's `rows_to_write`, and a table whose sql-path lookup is absent or
empty yields exactly the one row with three empty trailing fields. -/
theorem claim_C1_catalog_completeness (external_table_names : List String)
    (sql_paths py_paths py_table_paths yaml_paths : RefMap) :
    (∀ t ∈ external_table_names,
      ∃ r ∈ write_to_csv_rows external_table_names sql_paths py_paths py_table_paths yaml_paths,
        r.external_table_name = t) ∧
    (∀ t, (dictGet sql_paths t = none ∨ dictGet sql_paths t = some []) →
      rowsForTable sql_paths py_paths py_table_paths yaml_paths t = [⟨t, "", "", ""⟩]) := by
  constructor
  · intro t ht
    obtain ⟨r, hr⟩ := List.exists_mem_of_ne_nil _
      (rowsForTable_ne_nil sql_paths py_paths py_table_paths yaml_paths t)
    refine ⟨r, ?_, rowsForTable_fst sql_paths py_paths py_table_paths yaml_paths t r hr⟩
    show r ∈ external_table_names.flatMap
      (rowsForTable sql_paths py_paths py_table_paths yaml_paths)
    exact List.mem_flatMap.mpr ⟨t, ht, hr⟩
  · intro t h
    exact rowsForTable_placeholder sql_paths py_paths py_table_paths yaml_paths t h

theorem claim_C1_witness :
    (∃ r ∈ write_to_csv_rows ["A.B"] [] [] [] [], r.external_table_name = "A.B") ∧
    rowsForTable [] [] [] [] "A.B" = [⟨"A.B", "", "", ""⟩] :=
  ⟨(claim_C1_catalog_completeness ["A.B"] [] [] [] []).1 "A.B" (List.mem_singleton.mpr rfl),
   (claim_C1_catalog_completeness ["A.B"] [] [] [] []).2 "A.B" (Or.inl rfl)⟩

/-- C2: a table whose sql lookup yields only the null placeholder (key absent
or value empty) emits exactly one row of empty fields and the join moves on;
a real sql path with an empty filtered union of script lookups emits exactly
one row with empty script and config fields. -/
theorem claim_C2_placeholder_rows (sql_paths py_paths py_table_paths yaml_paths : RefMap)
    (t : String) :
    ((dictGet sql_paths t = none ∨ dictGet sql_paths t = some []) →
      rowsForTable sql_paths py_paths py_table_paths yaml_paths t = [⟨t, "", "", ""⟩]) ∧
    (∀ sql_path,
      ((get_paths py_paths sql_path [] ++ get_paths py_table_paths t []).filterMap
        (fun x => x)) = [] →
      rowsForSql py_paths py_table_paths yaml_paths t (some sql_path) =
        [⟨t, sql_path, "", ""⟩]) := by
  constructor
  · exact rowsForTable_placeholder sql_paths py_paths py_table_paths yaml_paths t
  · intro sql_path hunion
    simp only [rowsForSql]
    rw [hunion]
    rfl

theorem claim_C2_witness :
    (dictGet [] "T" = none ∨ dictGet [] "T" = some []) ∧
    rowsForTable [] [] [] [] "T" = [⟨"T", "", "", ""⟩] ∧
    ((get_paths [] "s.sql" [] ++ get_paths [] "T" []).filterMap (fun x => x) = []) ∧
    rowsForSql [] [] [] "T" (some "s.sql") = [⟨"T", "s.sql", "", ""⟩] :=
  ⟨Or.inl rfl,
   (claim_C2_placeholder_rows [] [] [] [] "T").1 (Or.inl rfl),
   rfl,
   (claim_C2_placeholder_rows [] [] [] [] "T").2 "s.sql" rfl⟩

/-- C5 (the claim's downstream half fails): the loader does return the empty
dict on a missing catalog CSV, but the driver then hands `None` to
`find_strings_in_sql_files`, whose dict comprehension raises `TypeError`: the
pipeline aborts instead of producing an empty report. -/
theorem claim_C5_missing_catalog_aborts :
    get_external_table_names_from_csv none = [] ∧
    (∀ walk, mainPipeline none walk =
      Except.error "TypeError: argument of type NoneType is not iterable") :=
  ⟨rfl, fun _ => rfl⟩

theorem listIdxOf_append {a : String} : ∀ (pre post : List String), a ∉ pre →
    listIdxOf a (pre ++ a :: post) = pre.length := by
  intro pre
  induction pre with
  | nil =>
    intro post _
    simp [listIdxOf]
  | cons x pre ih =>
    intro post hnot
    have hxa : ¬x = a := fun h => hnot (h ▸ List.mem_cons_self x pre)
    simp only [List.cons_append, listIdxOf]
    rw [if_neg hxa]
    show listIdxOf a (pre ++ a :: post) + 1 = (x :: pre).length
    rw [ih post (fun h => hnot (List.mem_cons_of_mem _ h))]
    rfl

/-- C8: the subfolder helper returns the component after the first `pipeline`
component — `"sales"` on the spec's example — and `none` when `pipeline` is
absent from the components or is the last one. -/
theorem claim_C8_subfolder_after_anchor :
    get_first_subfolder_from_anchor "C:\\x\\pipeline\\sales\\dags\\a.py" = some "sales" ∧
    (∀ p, "pipeline" ∉ pathParts p → get_first_subfolder_from_anchor p = none) ∧
    (∀ p pre post, pathParts p = pre ++ "pipeline" :: post → "pipeline" ∉ pre →
      get_first_subfolder_from_anchor p = post.head?) := by
  refine ⟨by decide, ?_, ?_⟩
  · intro p hnot
    simp only [get_first_subfolder_from_anchor]
    rw [if_neg hnot]
  · intro p pre post hparts hnot
    simp only [get_first_subfolder_from_anchor]
    rw [hparts]
    have hmem : "pipeline" ∈ pre ++ "pipeline" :: post :=
      List.mem_append_right _ (List.mem_cons_self _ _)
    rw [if_pos hmem, listIdxOf_append pre post hnot]
    cases post with
    | nil =>
      have hlen : ¬(pre.length + 1 < (pre ++ ["pipeline"]).length) := by simp
      rw [if_neg hlen]
      rfl
    | cons c post' =>
      have hlen : pre.length + 1 < (pre ++ "pipeline" :: c :: post').length := by
        simp only [List.length_append, List.length_cons]
        omega
      rw [if_pos hlen]
      have hdrop : (pre ++ "pipeline" :: c :: post').drop (pre.length + 1) = c :: post' := by
        rw [show pre ++ "pipeline" :: c :: post' = (pre ++ ["pipeline"]) ++ (c :: post') by simp]
        rw [List.drop_left' (by simp)]
      rw [hdrop]

theorem claim_C8_witness :
    get_first_subfolder_from_anchor "C:\\x\\y\\a.py" = none ∧
    get_first_subfolder_from_anchor "C:\\x\\pipeline" = none ∧
    get_first_subfolder_from_anchor "/repo/pipeline/sales/dags/a.py" = some "sales" := by
  refine ⟨?_, ?_, ?_⟩
  · exact (claim_C8_subfolder_after_anchor).2.1 "C:\\x\\y\\a.py" (by decide)
  · have h := (claim_C8_subfolder_after_anchor).2.2 "C:\\x\\pipeline" ["C:", "x"] []
      (by decide) (by decide)
    exact h
  · have h := (claim_C8_subfolder_after_anchor).2.2 "/repo/pipeline/sales/dags/a.py" ["repo"]
      ["sales", "dags", "a.py"] (by decide) (by decide)
    exact h

/-! ### Owner extraction: the spec's four-line example (C3) -/

/-- C3 counterexample: the claimed value is not what the code computes —
emails on an `owner:` line itself are never scanned (the block starts at the
following line), so `a@x.com` cannot appear. -/
theorem claim_C3_counterexample :
    extract_owners_from_lines specOwnerFileLines ≠ ["a@x.com", "b@x.com", "c@x.com"] := by
  decide

/-- C3 (amended): on the spec's four-line file the extractor returns exactly
`["b@x.com", "c@x.com"]`: each owner block scans only the lines after its
tag, so `a@x.com` on the first tag line is skipped, while `next: b@x.com`
and `owner: c@x.com` sit inside the first block because neither matches the
section-header shape (both have content after the colon). -/
theorem claim_C3_owner_extraction_amended :
    extract_owners_from_lines specOwnerFileLines = ["b@x.com", "c@x.com"] := by
  decide

/-! ### The section-header pattern, declaratively (C4) -/

theorem startsWithSeq_iff {pat s : List Char} :
    startsWithSeq pat s = true ↔ ∃ r, s = pat ++ r := by
  rw [startsWithSeq, beq_iff_eq]
  constructor
  · intro h
    have hsplit := (List.take_append_drop pat.length s).symm
    rw [h] at hsplit
    exact ⟨s.drop pat.length, hsplit⟩
  · rintro ⟨r, rfl⟩
    exact List.take_left pat r

theorem colonThen_iff {q : List Char → Bool} {s : List Char} :
    colonThen q s = true ↔ ∃ s5, s = ':' :: s5 ∧ q s5 = true := by
  cases s with
  | nil => simp [colonThen]
  | cons c s5 =>
    by_cases hc : c = ':'
    · subst hc
      simp [colonThen]
    · simp [colonThen, hc]

theorem any_markerOpts {p : List Char → Bool} {s : List Char} :
    (markerOpts s).any p = true ↔ ∃ m r, s = m ++ r ∧ MarkerOpt m ∧ p r = true := by
  rw [markerOpts]
  by_cases h2 : startsWithSeq ['*', '*'] s = true
  · rw [if_pos h2]
    obtain ⟨r2, hr2⟩ := startsWithSeq_iff.mp h2
    have hdrop : s.drop 2 = r2 := by rw [hr2]; rfl
    constructor
    · intro h
      rcases Bool.or_eq_true_iff.mp (by simpa using h) with hp | hp
      · exact ⟨['*', '*'], r2, hr2, Or.inr (Or.inl rfl), hdrop ▸ hp⟩
      · exact ⟨[], s, rfl, Or.inl rfl, hp⟩
    · rintro ⟨m, r, heq, hm, hp⟩
      have hone : p (s.drop 2) = true ∨ p s = true := by
        rcases hm with rfl | rfl | rfl
        · right
          simp only [List.nil_append] at heq
          rw [heq]
          exact hp
        · left
          rw [heq]
          exact hp
        · exfalso
          rw [hr2] at heq
          injection heq with hhd _
          exact absurd hhd (by decide)
      simpa using Bool.or_eq_true_iff.mpr hone
  · rw [if_neg h2]
    by_cases h1 : startsWithSeq ['#'] s = true
    · rw [if_pos h1]
      obtain ⟨r1, hr1⟩ := startsWithSeq_iff.mp h1
      have hdrop : s.drop 1 = r1 := by rw [hr1]; rfl
      have htail : s.tail = r1 := by rw [hr1]; rfl
      constructor
      · intro h
        rcases Bool.or_eq_true_iff.mp (by simpa using h) with hp | hp
        · exact ⟨['#'], r1, hr1, Or.inr (Or.inr rfl), htail ▸ hp⟩
        · exact ⟨[], s, rfl, Or.inl rfl, hp⟩
      · rintro ⟨m, r, heq, hm, hp⟩
        have hone : p (s.drop 1) = true ∨ p s = true := by
          rcases hm with rfl | rfl | rfl
          · right
            simp only [List.nil_append] at heq
            rw [heq]
            exact hp
          · exfalso
            exact h2 (by rw [heq]; exact startsWithSeq_iff.mpr ⟨r, rfl⟩)
          · left
            rw [heq]
            exact hp
        simpa using Bool.or_eq_true_iff.mpr hone
    · rw [if_neg h1]
      constructor
      · intro h
        exact ⟨[], s, rfl, Or.inl rfl, by simpa using h⟩
      · rintro ⟨m, r, heq, hm, hp⟩
        have hone : p s = true := by
          rcases hm with rfl | rfl | rfl
          · simp only [List.nil_append] at heq
            rw [heq]
            exact hp
          · exact absurd (by rw [heq]; exact startsWithSeq_iff.mpr ⟨r, rfl⟩) h2
          · exact absurd (by rw [heq]; exact startsWithSeq_iff.mpr ⟨r, rfl⟩) h1
        simpa using hone

theorem any_wsRem {p : List Char → Bool} : ∀ {s : List Char},
    (wsRem s).any p = true ↔ ∃ w r, s = w ++ r ∧ PySpaces w ∧ p r = true := by
  intro s
  induction s with
  | nil =>
    constructor
    · intro h
      simp only [wsRem, List.any_cons, List.any_nil, Bool.or_false] at h
      exact ⟨[], [], rfl, fun c hc => absurd hc (List.not_mem_nil c), h⟩
    · rintro ⟨w, r, heq, _, hp⟩
      obtain ⟨rfl, rfl⟩ := List.append_eq_nil.mp heq.symm
      simp only [wsRem, List.any_cons, List.any_nil, Bool.or_false]
      exact hp
  | cons c rest ih =>
    simp only [wsRem]
    by_cases hc : isPySpace c = true
    · rw [if_pos hc]
      constructor
      · intro h
        rw [List.any_cons] at h
        rcases Bool.or_eq_true_iff.mp h with hp | hp
        · exact ⟨[], c :: rest, rfl, fun x hx => absurd hx (List.not_mem_nil x), hp⟩
        · obtain ⟨w, r, heq, hw, hp'⟩ := ih.mp hp
          refine ⟨c :: w, r, by rw [List.cons_append, heq], ?_, hp'⟩
          intro x hx
          rcases List.mem_cons.mp hx with rfl | hx
          · exact hc
          · exact hw x hx
      · rintro ⟨w, r, heq, hw, hp⟩
        rw [List.any_cons]
        cases w with
        | nil =>
          simp only [List.nil_append] at heq
          subst heq
          rw [hp]
          rfl
        | cons w0 wrest =>
          rw [List.cons_append] at heq
          injection heq with h1 h2
          have hr : (wsRem rest).any p = true :=
            ih.mpr ⟨wrest, r, h2, fun x hx => hw x (List.mem_cons_of_mem _ hx), hp⟩
          rw [hr]
          simp
    · rw [if_neg hc]
      constructor
      · intro h
        rw [List.any_cons, List.any_nil, Bool.or_false] at h
        exact ⟨[], c :: rest, rfl, fun x hx => absurd hx (List.not_mem_nil x), h⟩
      · rintro ⟨w, r, heq, hw, hp⟩
        rw [List.any_cons, List.any_nil, Bool.or_false]
        cases w with
        | nil =>
          simp only [List.nil_append] at heq
          subst heq
          exact hp
        | cons w0 wrest =>
          rw [List.cons_append] at heq
          injection heq with h1 h2
          exact absurd (h1 ▸ hw w0 (List.mem_cons_self _ _)) hc

theorem any_seqRem {q : List Char → Bool} {p : Char → Bool} : ∀ {s : List Char},
    (seqRem p s).any q = true ↔
      ∃ k r, s = k ++ r ∧ k ≠ [] ∧ (∀ c ∈ k, p c = true) ∧ q r = true := by
  intro s
  induction s with
  | nil =>
    constructor
    · intro h
      simp [seqRem] at h
    · rintro ⟨k, r, heq, hk, _, _⟩
      cases k with
      | nil => exact absurd rfl hk
      | cons a b => simp at heq
  | cons c rest ih =>
    simp only [seqRem]
    by_cases hc : p c = true
    · rw [if_pos hc]
      constructor
      · intro h
        rw [List.any_cons] at h
        rcases Bool.or_eq_true_iff.mp h with hq | hq
        · refine ⟨[c], rest, rfl, by simp, ?_, hq⟩
          intro x hx
          rw [List.mem_singleton] at hx
          rw [hx]
          exact hc
        · obtain ⟨k, r, heq, hk, hall, hq'⟩ := ih.mp hq
          refine ⟨c :: k, r, by rw [List.cons_append, heq], by simp, ?_, hq'⟩
          intro x hx
          rcases List.mem_cons.mp hx with rfl | hx
          · exact hc
          · exact hall x hx
      · rintro ⟨k, r, heq, hk, hall, hq⟩
        rw [List.any_cons]
        cases k with
        | nil => exact absurd rfl hk
        | cons k0 krest =>
          rw [List.cons_append] at heq
          injection heq with h1 h2
          cases krest with
          | nil =>
            simp only [List.nil_append] at h2
            subst h2
            rw [hq]
            rfl
          | cons k1 krest2 =>
            have hr : (seqRem p rest).any q = true := ih.mpr ⟨k1 :: krest2, r, h2, by simp,
              fun x hx => hall x (List.mem_cons_of_mem _ hx), hq⟩
            rw [hr]
            simp
    · rw [if_neg hc]
      constructor
      · intro h
        simp at h
      · rintro ⟨k, r, heq, hk, hall, hq⟩
        cases k with
        | nil => exact absurd rfl hk
        | cons k0 krest =>
          rw [List.cons_append] at heq
          injection heq with h1 h2
          exact absurd (h1 ▸ hall k0 (List.mem_cons_self _ _)) hc

/-- The regex matcher agrees exactly with the declarative terminator shape. -/
theorem newSectionMatch_iff : ∀ {s : List Char},
    newSectionMatch s = true ↔ TerminatorShape s := by
  intro s
  rw [newSectionMatch]
  constructor
  · intro h
    obtain ⟨w1, r1, rfl, hw1, h1⟩ := any_wsRem.mp h
    obtain ⟨m1, r2, rfl, hm1, h2⟩ := any_markerOpts.mp h1
    obtain ⟨w2, r3, rfl, hw2, h3⟩ := any_wsRem.mp h2
    obtain ⟨k, r4, rfl, hk, hkall, h4⟩ := any_seqRem.mp h3
    obtain ⟨s5, rfl, h5⟩ := colonThen_iff.mp h4
    obtain ⟨w3, r6, rfl, hw3, h6⟩ := any_wsRem.mp h5
    obtain ⟨m2, r7, rfl, hm2, h7⟩ := any_markerOpts.mp h6
    obtain ⟨w4, r8, rfl, hw4, h8⟩ := any_wsRem.mp h7
    have hr8 : r8 = [] := by simpa using h8
    subst hr8
    refine ⟨w1, m1, w2, k, w3, m2, w4, ?_, hw1, hm1, hw2, hk, hkall, hw3, hm2, hw4⟩
    simp
  · rintro ⟨w1, m1, w2, k, w3, m2, w4, rfl, hw1, hm1, hw2, hk, hkall, hw3, hm2, hw4⟩
    refine any_wsRem.mpr ⟨w1, _, rfl, hw1, ?_⟩
    refine any_markerOpts.mpr ⟨m1, _, rfl, hm1, ?_⟩
    refine any_wsRem.mpr ⟨w2, _, rfl, hw2, ?_⟩
    refine any_seqRem.mpr ⟨k, _, rfl, hk, hkall, ?_⟩
    refine colonThen_iff.mpr ⟨_, rfl, ?_⟩
    refine any_wsRem.mpr ⟨w3, _, rfl, hw3, ?_⟩
    refine any_markerOpts.mpr ⟨m2, _, rfl, hm2, ?_⟩
    exact any_wsRem.mpr ⟨w4, [], (List.append_nil w4).symm, hw4, rfl⟩

/-- C4 (amended): a line terminates an owner block exactly when its stripped
text consists of optional whitespace, an optional `**` or `#` marker,
optional whitespace, one or more ASCII letters or underscores, a colon,
optional whitespace, an optional trailing marker and optional trailing
whitespace, nothing else; in particular a line with any other content after
the colon (an email, say) is not a terminator. -/
theorem claim_C4_terminator_amended (line : String) :
    isTerminator line = true ↔ TerminatorShape (pyStrip line).data := by
  rw [isTerminator]
  exact newSectionMatch_iff

/-- C4 counterexample: the claim's shape (regex word characters, no interior
whitespace) disagrees with the code's pattern in both directions.  `a1:` fits
the claim's shape but does not terminate a block — the code's key class
`[a-zA-Z_]` has no digits — so the email after it is still collected; `# a:`
terminates a block but does not fit the claim's shape, because the code
allows whitespace between marker and key. -/
theorem claim_C4_counterexample :
    claimedTerminator (pyStrip "a1:").data = true ∧ isTerminator "a1:" = false ∧
    claimedTerminator (pyStrip "# a:").data = false ∧ isTerminator "# a:" = true ∧
    extract_owners_from_lines ["owner: x\n", "a1:\n", "e@y.z"] = ["e@y.z"] := by
  decide

/-- C4 witness: `State:` is a terminator, so the amended equivalence yields
its declarative decomposition at a concrete line. -/
theorem claim_C4_witness : TerminatorShape (pyStrip "State:").data :=
  (claim_C4_terminator_amended "State:").mp (by decide)
